import Mathlib

/-!
Shallow embedding of a cache-aside key/value store over a relational table,
with TTL expiry, tombstone-based soft deletes, and a sampling expiry worker.

Modelling conventions:
* `Time` is `Int` (Unix nanoseconds, the unit of Go's `time.Duration`);
  `TombstoneTime = 0` models `time.Unix(0, 0)`. The one place Go arithmetic
  can overflow — `time.Duration(ttlSeconds) * time.Second` in int64 — is
  modelled with an explicit two's-complement wrap (`wrap64`).
* The relational table `kv` is an association list `DB := List (Key × Row)`;
  the `key` column's unique constraint is the hypothesis
  `(db.map Prod.fst).Nodup` where a claim needs it.
* The in-memory cache (`sync.Map`) is a function `Key → Option Entry`.
* A fallible database call takes an extra `Option Err` parameter: `some e`
  means the underlying driver reported error `e`, `none` means it succeeded.
  The pure `Store` functions give the success-path semantics of each SQL
  statement; the `Engine` and `Worker` functions thread the fault parameters
  exactly where the Go code checks `err != nil`.
-/

abbrev Key := String

abbrev Val := List Nat

abbrev Time := Int

abbrev Err := String

/-- Sentinel expiry used for soft deletes: `time.Unix(0, 0).UTC()`. -/
def TombstoneTime : Time := 0

/-- One row of the `kv` table: `(key, value, expires_at)`, the key held by the
association list; `expiresAt = none` models `expires_at IS NULL`. -/
structure Row where
  value : Val
  expiresAt : Option Time
deriving Repr, DecidableEq

/-- The `kv` table. -/
abbrev DB := List (Key × Row)

/-- A cache entry: value plus optional expiry (`ExpiresAt *time.Time`). -/
structure Entry where
  value : Val
  expiresAt : Option Time
deriving Repr, DecidableEq

/-- The cache contents (`sync.Map` keyed by string). -/
abbrev Cache := Key → Option Entry

/-- SQL liveness filter of `Store.Get`:
`expires_at IS NULL OR expires_at > NOW()`. -/
def Store.alive (expiresAt : Option Time) (now : Time) : Bool :=
  match expiresAt with
  | none => true
  | some e => decide (now < e)

/-- SQL eligibility filter of `Store.HardDeleteBatch`:
`expires_at IS NOT NULL AND expires_at <= NOW()`. -/
def Store.reclaimable (expiresAt : Option Time) (now : Time) : Bool :=
  match expiresAt with
  | none => false
  | some e => decide (e ≤ now)

/-- Row selection by key: `WHERE key = $1` over the table, returning the
first (under the unique-key constraint, the only) matching row. -/
def DB.lookupKey : DB → Key → Option Row
  | [], _ => none
  | p :: tl, k => if p.1 = k then some p.2 else DB.lookupKey tl k

/-- `Store.Get`: `SELECT value, expires_at FROM kv WHERE key = $1 AND
(expires_at IS NULL OR expires_at > NOW())`; `sql.ErrNoRows` becomes `none`. -/
def Store.Get (db : DB) (k : Key) (now : Time) : Option (Val × Option Time) :=
  match DB.lookupKey db k with
  | none => none
  | some r => if Store.alive r.expiresAt now then some (r.value, r.expiresAt) else none

/-- Upsert helper: `INSERT ... ON CONFLICT (key) DO UPDATE` — replaces the
row in place when the key exists, appends a fresh row otherwise. -/
def DB.upsert (db : DB) (k : Key) (r : Row) : DB :=
  if db.any (fun p => p.1 = k) then
    db.map (fun p => if p.1 = k then (p.1, r) else p)
  else
    db ++ [(k, r)]

/-- `Store.Set`: upsert with `expires_at = NULL`. -/
def Store.Set (db : DB) (k : Key) (v : Val) : DB :=
  DB.upsert db k ⟨v, none⟩

/-- Two's-complement wrap of Go's signed 64-bit integer arithmetic: maps an
unbounded integer to its int64 representative in `[-2^63, 2^63)`. -/
def wrap64 (n : Int) : Int :=
  (n + 2 ^ 63) % 2 ^ 64 - 2 ^ 63

/-- `Store.SetWithTTL`: computes
`expiresAt := time.Now().Add(time.Duration(ttlSeconds) * time.Second)`,
upserts the row with it, and returns the computed timestamp. The product
`time.Duration(ttlSeconds) * time.Second` is int64 nanoseconds and wraps,
so the duration added is `wrap64 (ttlSeconds * 10^9)` nanoseconds. -/
def Store.SetWithTTL (db : DB) (k : Key) (v : Val) (ttlSeconds : Time) (now : Time) :
    Time × DB :=
  (now + wrap64 (ttlSeconds * 1000000000),
   DB.upsert db k ⟨v, some (now + wrap64 (ttlSeconds * 1000000000))⟩)

/-- `Store.SoftDelete`: `UPDATE kv SET expires_at = $1 WHERE key = $2` with
the tombstone sentinel — an update of existing rows, inserting nothing. -/
def Store.SoftDelete (db : DB) (k : Key) : DB :=
  db.map (fun p => if p.1 = k then (p.1, ⟨p.2.value, some TombstoneTime⟩) else p)

/-- Subselect of `Store.HardDeleteBatch`: `SELECT key FROM kv WHERE
expires_at IS NOT NULL AND expires_at <= NOW() LIMIT $1`. -/
def Store.deleteVictims (db : DB) (limit : Nat) (now : Time) : List Key :=
  ((db.filter (fun p => Store.reclaimable p.2.expiresAt now)).take limit).map Prod.fst

/-- `Store.HardDeleteBatch`: `DELETE FROM kv WHERE key IN (subselect)`;
returns `RowsAffected`, the number of rows the delete removed. -/
def Store.HardDeleteBatch (db : DB) (limit : Nat) (now : Time) : Nat × DB :=
  (db.length - (db.filter (fun p => p.1 ∉ Store.deleteVictims db limit now)).length,
   db.filter (fun p => p.1 ∉ Store.deleteVictims db limit now))

/-- Loop body of `Store.SampleExpiredKeys`: a failed `rows.Scan` (`none`)
is skipped by `continue`; a scanned timestamp bumps `total`, and also
`expired` when `now.After(expiresAt)`. -/
def sampleStep (now : Time) (acc : Nat × Nat) (o : Option Time) : Nat × Nat :=
  match o with
  | none => acc
  | some e => (acc.1 + 1, if decide (e < now) then acc.2 + 1 else acc.2)

/-- `Store.SampleExpiredKeys` scan loop over the sampled rows; returns
`(total, expired)`. -/
def Store.SampleExpiredKeys (rows : List (Option Time)) (now : Time) : Nat × Nat :=
  rows.foldl (sampleStep now) (0, 0)

/-- `Cache.Get`: `sync.Map` load. -/
def Cache.Get (c : Cache) (k : Key) : Option Entry := c k

/-- `Cache.Set`: stores a fresh entry, overwriting unconditionally. -/
def Cache.Set (c : Cache) (k : Key) (v : Val) (expiresAt : Option Time) : Cache :=
  fun k2 => if k2 = k then some ⟨v, expiresAt⟩ else c k2

/-- `Cache.Delete`: `sync.Map` delete. -/
def Cache.Delete (c : Cache) (k : Key) : Cache :=
  fun k2 => if k2 = k then none else c k2

/-- `Cache.IsExpired`: `nil` entry or `nil ExpiresAt` is never expired;
otherwise `time.Now().After(*entry.ExpiresAt)`, i.e. now strictly after. -/
def Cache.IsExpired (entry : Option Entry) (now : Time) : Bool :=
  match entry with
  | none => false
  | some en =>
    match en.expiresAt with
    | none => false
    | some e => decide (e < now)

/-- Engine state: the cache plus the durable table. -/
structure Sys where
  cache : Cache
  db : DB

/-- `Engine.Get`. `sdFault` injects a failure of the opportunistic
`Store.SoftDelete` (logged, not propagated); `dbFault` injects a failure of
the `Store.Get` query (propagated). Returns the call's result and the state
afterwards. -/
def Engine.Get (sdFault dbFault : Option Err) (s : Sys) (k : Key) (now : Time) :
    Except Err (Option Val) × Sys :=
  match Cache.Get s.cache k with
  | some entry =>
    if Cache.IsExpired (some entry) now then
      (Except.ok none,
        ⟨Cache.Delete s.cache k,
          match sdFault with
          | some _ => s.db
          | none => Store.SoftDelete s.db k⟩)
    else
      (Except.ok (some entry.value), s)
  | none =>
    match dbFault with
    | some e => (Except.error e, s)
    | none =>
      match Store.Get s.db k now with
      | none => (Except.ok none, s)
      | some (v, exp) => (Except.ok (some v), ⟨Cache.Set s.cache k v exp, s.db⟩)

/-- `Engine.Set`: store write first; on driver error return it with the
cache untouched, on success update the cache with no expiry. -/
def Engine.Set (fault : Option Err) (s : Sys) (k : Key) (v : Val) :
    Option Err × Sys :=
  match fault with
  | some e => (some e, s)
  | none => (none, ⟨Cache.Set s.cache k v none, Store.Set s.db k v⟩)

/-- `Engine.SetWithTTL`: store write first; on success the cache receives
the expiry timestamp the store computed. -/
def Engine.SetWithTTL (fault : Option Err) (s : Sys) (k : Key) (v : Val)
    (ttlSeconds : Time) (now : Time) : Option Err × Sys :=
  match fault with
  | some e => (some e, s)
  | none =>
    let r := Store.SetWithTTL s.db k v ttlSeconds now
    (none, ⟨Cache.Set s.cache k v (some r.1), r.2⟩)

/-- `Engine.Delete`: `Store.SoftDelete` then `Cache.Delete`; a store error
is returned with nothing changed. -/
def Engine.Delete (fault : Option Err) (s : Sys) (k : Key) : Option Err × Sys :=
  match fault with
  | some e => (some e, s)
  | none => (none, ⟨Cache.Delete s.cache k, Store.SoftDelete s.db k⟩)

/-- Expiry worker configuration (`expiry.Config`); the threshold is the
exact rational the float configuration denotes. -/
structure Config where
  sampleSize : Nat
  expiryThreshold : ℚ
  deleteBatchSize : Nat

/-- Outcome of one `Worker.runCycle`, mirroring its early returns. -/
inductive CycleResult where
  | sampleError (e : Err)
  | emptySample
  | skippedLowRatio (total expired : Nat)
  | deleteError (total expired : Nat) (e : Err)
  | cleaned (total expired deleted : Nat)
deriving Repr, DecidableEq

/-- The sampling query of `Store.SampleExpiredKeys` draws at most
`sampleSize` rows, each carrying a non-absent expiry marker of some row of
the table (`WHERE expires_at IS NOT NULL ORDER BY random() LIMIT $1`);
`none` elements are rows whose scan failed. -/
def sampleWF (db : DB) (sampleSize : Nat) (rows : List (Option Time)) : Prop :=
  rows.length ≤ sampleSize ∧
    ∀ t : Time, some t ∈ rows → some t ∈ db.map (fun p => p.2.expiresAt)

/-- `Worker.runCycle`: sample, skip on error or empty sample, compare the
expired ratio with the threshold, and on a dense sample run one
`HardDeleteBatch(DeleteBatchSize)`. `sampleFault` injects a sampling query
error, `deleteFault` a batch-delete error. -/
def Worker.runCycle (cfg : Config) (sampleFault deleteFault : Option Err)
    (rows : List (Option Time)) (db : DB) (now : Time) : CycleResult × DB :=
  match sampleFault with
  | some e => (CycleResult.sampleError e, db)
  | none =>
    let c := Store.SampleExpiredKeys rows now
    if c.1 = 0 then
      (CycleResult.emptySample, db)
    else
      if (c.2 : ℚ) / (c.1 : ℚ) < cfg.expiryThreshold then
        (CycleResult.skippedLowRatio c.1 c.2, db)
      else
        match deleteFault with
        | some e => (CycleResult.deleteError c.1 c.2 e, db)
        | none =>
          let d := Store.HardDeleteBatch db cfg.deleteBatchSize now
          (CycleResult.cleaned c.1 c.2 d.1, d.2)

/-- Cache holding no entries. -/
def emptyCache : Cache := fun _ => none

/-- Cache holding exactly one entry. -/
def cacheOf (k : Key) (en : Entry) : Cache :=
  fun k2 => if k2 = k then some en else none

/-- Caller-visible value of an `Engine.Get` result: the Go signature
`([]byte, error)` carries `nil` value on both not-found and error. -/
def readResult (r : Except Err (Option Val)) : Option Val :=
  match r with
  | Except.ok v => v
  | Except.error _ => none

/-- A sequence of fault-free `Engine.Get` calls on key `k`: each element
gives the wall-clock time of the read and whether the cache entry for `k`
was evicted just before it (forcing a cache-cold read from the store).
Returns the list of read results and the final state. -/
def Engine.runReads : Sys → Key → List (Time × Bool) → List (Option Val) × Sys
  | s, _, [] => ([], s)
  | s, k, (t, cold) :: rest =>
    let s1 : Sys := if cold then ⟨Cache.Delete s.cache k, s.db⟩ else s
    let r := Engine.Get none none s1 k t
    let rr := Engine.runReads r.2 k rest
    (readResult r.1 :: rr.1, rr.2)

/-- States reachable for key `k` by reads after `SetWithTTL` wrote value
`v` with expiry `e`, when the last read happened at `tPrev`: either the
row is still live with the cache empty or mirroring it, or some read after
the expiry already tombstoned the row and evicted the cache entry. -/
def ttlInv (k : Key) (v : Val) (e tPrev : Time) (s : Sys) : Prop :=
  (DB.lookupKey s.db k = some ⟨v, some e⟩ ∧
    (Cache.Get s.cache k = none ∨ Cache.Get s.cache k = some ⟨v, some e⟩)) ∨
  (DB.lookupKey s.db k = some ⟨v, some TombstoneTime⟩ ∧
    Cache.Get s.cache k = none ∧ e < tPrev)

theorem lookupKey_softDelete (db : DB) (k : Key) :
    DB.lookupKey (Store.SoftDelete db k) k =
      (DB.lookupKey db k).map (fun r => ⟨r.value, some TombstoneTime⟩) := by
  induction db with
  | nil => rfl
  | cons hd tl ih =>
    rcases hd with ⟨k1, r1⟩
    by_cases hk : k1 = k
    · simp [Store.SoftDelete, DB.lookupKey, hk]
    · simpa [Store.SoftDelete, DB.lookupKey, hk] using ih

theorem softDelete_idem (db : DB) (k : Key) :
    Store.SoftDelete (Store.SoftDelete db k) k = Store.SoftDelete db k := by
  unfold Store.SoftDelete
  rw [List.map_map]
  apply List.map_congr_left
  intro p _
  by_cases hk : p.1 = k <;> simp [hk]

theorem softDelete_of_lookupKey_none (db : DB) (k : Key)
    (h : DB.lookupKey db k = none) : Store.SoftDelete db k = db := by
  induction db with
  | nil => rfl
  | cons hd tl ih =>
    rcases hd with ⟨k1, r1⟩
    by_cases hk : k1 = k
    · simp [DB.lookupKey, hk] at h
    · simp only [DB.lookupKey, if_neg hk] at h
      simp only [Store.SoftDelete, List.map_cons, if_neg hk]
      exact congrArg (List.cons (k1, r1)) (ih h)

theorem cache_delete_idem (c : Cache) (k : Key) :
    Cache.Delete (Cache.Delete c k) k = Cache.Delete c k := by
  funext k2
  by_cases h : k2 = k <;> simp [Cache.Delete, h]

theorem lookupKey_map_replace (db : DB) (k : Key) (r : Row)
    (h : db.any (fun p => p.1 = k) = true) :
    DB.lookupKey (db.map (fun p => if p.1 = k then (p.1, r) else p)) k = some r := by
  induction db with
  | nil => simp at h
  | cons hd tl ih =>
    rcases hd with ⟨k1, r1⟩
    by_cases hk : k1 = k
    · simp [DB.lookupKey, hk]
    · simp only [List.any_cons, decide_eq_true_eq, Bool.or_eq_true, hk, false_or] at h
      simpa [DB.lookupKey, hk] using ih h

theorem lookupKey_append_single (db : DB) (k : Key) (r : Row)
    (h : ¬ db.any (fun p => p.1 = k) = true) :
    DB.lookupKey (db ++ [(k, r)]) k = some r := by
  induction db with
  | nil => simp [DB.lookupKey]
  | cons hd tl ih =>
    simp only [List.any_cons, decide_eq_true_eq, Bool.or_eq_true, not_or] at h
    simp only [List.cons_append, DB.lookupKey, if_neg h.1]
    exact ih (by simpa using h.2)

theorem lookupKey_upsert (db : DB) (k : Key) (r : Row) :
    DB.lookupKey (DB.upsert db k r) k = some r := by
  unfold DB.upsert
  by_cases h : db.any (fun p => p.1 = k) = true
  · simp only [h, if_true]
    exact lookupKey_map_replace db k r h
  · simp only [h, if_false]
    exact lookupKey_append_single db k r h

/-- C9: `Cache.IsExpired` is total on its public interface: a `nil` entry,
or an entry with absent expiry marker (`nil ExpiresAt`), is reported not
expired at every evaluation time, and the call never faults. -/
theorem cache_isExpired_total :
    ∀ now : Time, Cache.IsExpired none now = false ∧
      ∀ v : Val, Cache.IsExpired (some ⟨v, none⟩) now = false := by
  intro now
  exact ⟨rfl, fun _ => rfl⟩

/-- C3: `Engine.Set` writes the store first and updates the cache with an
absent expiry marker exactly when the store write succeeds; when `Store.Set`
fails with error `e`, `Engine.Set` returns that same error and the whole
state — in particular the cache — is left unchanged. -/
theorem engine_set_spec :
    ∀ (s : Sys) (k : Key) (v : Val),
      Engine.Set none s k v =
        (none, ⟨Cache.Set s.cache k v none, Store.Set s.db k v⟩) ∧
      ∀ e : Err, Engine.Set (some e) s k v = (some e, s) := by
  intro s k v
  exact ⟨rfl, fun _ => rfl⟩

/-- C1 counterexample: at the boundary where the expiry marker equals the
current time, `Cache.IsExpired` reports the entry NOT expired while
`Store.Get` excludes a row carrying the very same marker, so the two sides
do not decide the same predicate at the boundary. -/
theorem liveness_boundary_cex :
    Cache.IsExpired (some ⟨[1], some 0⟩) 0 = false ∧
      Store.Get [("k", ⟨[1], some 0⟩)] "k" 0 = none := by
  constructor
  · rfl
  · rfl

/-- C1 amended: `Store.Get` filters by exactly the logical-presence
predicate (marker absent or strictly in the future), and `Cache.IsExpired`
decides the complement of that predicate at every evaluation time other
than the boundary; at `marker = now` the cache still treats the entry as
live while the store excludes the row. -/
theorem liveness_agree_off_boundary :
    (∀ (exp : Option Time) (now : Time),
        Store.alive exp now = true ↔ (exp = none ∨ ∃ e, exp = some e ∧ now < e)) ∧
    (∀ (db : DB) (k : Key) (now : Time) (r : Row), DB.lookupKey db k = some r →
        (Store.Get db k now).isSome = Store.alive r.expiresAt now) ∧
    (∀ (v : Val) (e now : Time), e ≠ now →
        Cache.IsExpired (some ⟨v, some e⟩) now = !(Store.alive (some e) now)) ∧
    (∀ (v : Val) (now : Time),
        Cache.IsExpired (some ⟨v, none⟩) now = false ∧ Store.alive none now = true) := by
  refine ⟨?_, ?_, ?_, ?_⟩
  · intro exp now
    cases exp with
    | none => simp [Store.alive]
    | some e => simp [Store.alive]
  · intro db k now r hr
    unfold Store.Get
    rw [hr]
    by_cases h : Store.alive r.expiresAt now = true
    · simp [h]
    · simp [Bool.eq_false_iff.mpr h, h]
  · intro v e now hne
    rcases lt_trichotomy e now with h | h | h
    · simp [Cache.IsExpired, Store.alive, h, lt_asymm h]
    · exact absurd h hne
    · simp [Cache.IsExpired, Store.alive, h, lt_asymm h]
  · intro v now
    exact ⟨rfl, rfl⟩

/-- C1 amended, witness at concrete inputs. -/
theorem liveness_agree_off_boundary_witness :
    (Store.Get [("k", ⟨[1], some 5⟩)] "k" 3).isSome = Store.alive (some 5) 3 ∧
      Cache.IsExpired (some ⟨[1], some 5⟩) 3 = !(Store.alive (some 5) 3) := by
  constructor
  · exact liveness_agree_off_boundary.2.1 [("k", ⟨[1], some 5⟩)] "k" 3 ⟨[1], some 5⟩ (by decide)
  · exact liveness_agree_off_boundary.2.2.1 [1] 5 3 (by decide)

/-- C2 counterexample: `Store.SoftDelete` is an UPDATE, not an upsert — on
a key that never existed, `Engine.Delete` succeeds but afterwards the store
holds NO row for the key, contradicting the claim that after every Delete
the store holds a row whose expiry marker equals the tombstone sentinel. -/
theorem engine_delete_missing_key_cex :
    (Engine.Delete none ⟨emptyCache, []⟩ "k").1 = none ∧
      DB.lookupKey ((Engine.Delete none ⟨emptyCache, []⟩ "k").2).db "k" = none := by
  exact ⟨rfl, rfl⟩

/-- C2 amended: `Engine.Delete` always succeeds (absent driver faults) and
is idempotent; when the key has a row, that row survives with its expiry
marker set to the tombstone sentinel and no row is physically removed; on a
never-existing key the store is left unchanged — no row is created, because
`Store.SoftDelete` is an update of existing rows, not an upsert. -/
theorem engine_delete_soft_idempotent :
    ∀ (s : Sys) (k : Key),
      (Engine.Delete none s k).1 = none ∧
      (∀ r : Row, DB.lookupKey s.db k = some r →
        DB.lookupKey ((Engine.Delete none s k).2).db k =
          some ⟨r.value, some TombstoneTime⟩) ∧
      ((Engine.Delete none s k).2).db.length = s.db.length ∧
      (DB.lookupKey s.db k = none → ((Engine.Delete none s k).2).db = s.db) ∧
      Engine.Delete none ((Engine.Delete none s k).2) k =
        (none, (Engine.Delete none s k).2) := by
  intro s k
  refine ⟨rfl, ?_, ?_, ?_, ?_⟩
  · intro r hr
    show DB.lookupKey (Store.SoftDelete s.db k) k = _
    rw [lookupKey_softDelete, hr]
    rfl
  · exact List.length_map s.db _
  · intro h
    show Store.SoftDelete s.db k = s.db
    exact softDelete_of_lookupKey_none s.db k h
  · show (none, (⟨Cache.Delete (Cache.Delete s.cache k) k,
        Store.SoftDelete (Store.SoftDelete s.db k) k⟩ : Sys)) = _
    rw [cache_delete_idem, softDelete_idem]
    rfl

/-- C2 amended, witness: deleting an existing key leaves a tombstoned row,
and deleting a missing key leaves the empty table unchanged. -/
theorem engine_delete_soft_idempotent_witness :
    DB.lookupKey ((Engine.Delete none ⟨emptyCache, [("k", ⟨[7], some 42⟩)]⟩ "k").2).db "k" =
        some ⟨[7], some TombstoneTime⟩ ∧
      ((Engine.Delete none ⟨emptyCache, ([] : DB)⟩ "q").2).db = ([] : DB) := by
  constructor
  · exact (engine_delete_soft_idempotent ⟨emptyCache, [("k", ⟨[7], some 42⟩)]⟩ "k").2.1
      ⟨[7], some 42⟩ (by decide)
  · exact (engine_delete_soft_idempotent ⟨emptyCache, ([] : DB)⟩ "q").2.2.2.1 rfl

theorem storeGet_lookupKey_none (db : DB) (k : Key) (now : Time)
    (hl : DB.lookupKey db k = none) : Store.Get db k now = none := by
  unfold Store.Get
  rw [hl]

theorem storeGet_lookupKey_some (db : DB) (k : Key) (now : Time) (r : Row)
    (hl : DB.lookupKey db k = some r) :
    Store.Get db k now =
      if Store.alive r.expiresAt now then some (r.value, r.expiresAt) else none := by
  unfold Store.Get
  rw [hl]

theorem engineGet_cache_some (sdFault dbFault : Option Err) (s : Sys) (k : Key)
    (now : Time) (entry : Entry) (hc : Cache.Get s.cache k = some entry) :
    Engine.Get sdFault dbFault s k now =
      if Cache.IsExpired (some entry) now then
        (Except.ok none,
          ⟨Cache.Delete s.cache k,
            match sdFault with
            | some _ => s.db
            | none => Store.SoftDelete s.db k⟩)
      else
        (Except.ok (some entry.value), s) := by
  unfold Engine.Get
  rw [hc]

theorem engineGet_cache_none (sdFault dbFault : Option Err) (s : Sys) (k : Key)
    (now : Time) (hc : Cache.Get s.cache k = none) :
    Engine.Get sdFault dbFault s k now =
      match dbFault with
      | some e => (Except.error e, s)
      | none =>
        match Store.Get s.db k now with
        | none => (Except.ok none, s)
        | some (v, exp) => (Except.ok (some v), ⟨Cache.Set s.cache k v exp, s.db⟩) := by
  unfold Engine.Get
  rw [hc]

/-- C6: on `Engine.Get` of a cache entry that `IsExpired`, the call returns
Absent (`ok none`), the entry is removed from the cache, and the
opportunistic `Store.SoftDelete` is best-effort: on success it tombstones
the row, on failure the store is untouched — in both cases the read's
outcome is the same and no error is surfaced. -/
theorem engine_get_expired_cache_entry :
    ∀ (sdFault dbFault : Option Err) (s : Sys) (k : Key) (now : Time) (entry : Entry),
      Cache.Get s.cache k = some entry →
      Cache.IsExpired (some entry) now = true →
      (Engine.Get sdFault dbFault s k now).1 = Except.ok none ∧
      Cache.Get ((Engine.Get sdFault dbFault s k now).2).cache k = none ∧
      (sdFault = none →
        ((Engine.Get sdFault dbFault s k now).2).db = Store.SoftDelete s.db k) ∧
      (∀ e : Err, sdFault = some e →
        ((Engine.Get sdFault dbFault s k now).2).db = s.db) := by
  intro sdFault dbFault s k now entry hc hexp
  have hget : Engine.Get sdFault dbFault s k now =
      (Except.ok none,
        ⟨Cache.Delete s.cache k,
          match sdFault with
          | some _ => s.db
          | none => Store.SoftDelete s.db k⟩) := by
    rw [engineGet_cache_some sdFault dbFault s k now entry hc, if_pos hexp]
  refine ⟨by rw [hget], ?_, ?_, ?_⟩
  · rw [hget]
    simp [Cache.Get, Cache.Delete]
  · intro h
    rw [hget, h]
  · intro e h
    rw [hget, h]

/-- C6 witness: an expired cached entry read at time 5 with a failing soft
delete still yields Absent, with the entry gone from the cache and the
store untouched. -/
theorem engine_get_expired_cache_entry_witness :
    (Engine.Get (some "boom") none ⟨cacheOf "k" ⟨[3], some 1⟩, []⟩ "k" 5).1 =
        Except.ok none ∧
      Cache.Get ((Engine.Get (some "boom") none
        ⟨cacheOf "k" ⟨[3], some 1⟩, []⟩ "k" 5).2).cache "k" = none ∧
      ((Engine.Get (some "boom") none
        ⟨cacheOf "k" ⟨[3], some 1⟩, []⟩ "k" 5).2).db = [] := by
  have h := engine_get_expired_cache_entry (some "boom") none
    ⟨cacheOf "k" ⟨[3], some 1⟩, []⟩ "k" 5 ⟨[3], some 1⟩ (by decide) (by decide)
  exact ⟨h.1, h.2.1, h.2.2.2 "boom" rfl⟩

/-- C8: `Store.Get` returns a row only when its expiry marker is absent or
strictly in the future; a missing or excluded key is a normal not-found
(`none`) rather than an error; and at the Engine surface a fault-free read
always produces `ok` (Absent is `ok none`) while a store query fault on the
cache-miss path surfaces as `error`, so the two outcomes are always
distinguishable. -/
theorem store_get_live_only_absent_vs_error :
    (∀ (db : DB) (k : Key) (now : Time) (v : Val) (exp : Option Time),
        Store.Get db k now = some (v, exp) →
        exp = none ∨ ∃ e, exp = some e ∧ now < e) ∧
    (∀ (db : DB) (k : Key) (now : Time),
        DB.lookupKey db k = none → Store.Get db k now = none) ∧
    (∀ (db : DB) (k : Key) (now : Time) (r : Row),
        DB.lookupKey db k = some r → Store.alive r.expiresAt now = false →
        Store.Get db k now = none) ∧
    (∀ (s : Sys) (k : Key) (now : Time) (sdFault : Option Err),
        (∃ o : Option Val, (Engine.Get sdFault none s k now).1 = Except.ok o) ∧
        (∀ e : Err, Cache.Get s.cache k = none →
          (Engine.Get sdFault (some e) s k now).1 = Except.error e)) := by
  refine ⟨?_, ?_, ?_, ?_⟩
  · intro db k now v exp hget
    rcases hl : DB.lookupKey db k with _ | r
    · rw [storeGet_lookupKey_none db k now hl] at hget
      exact absurd hget (by simp)
    · rw [storeGet_lookupKey_some db k now r hl] at hget
      by_cases ha : Store.alive r.expiresAt now = true
      · rw [if_pos ha] at hget
        simp only [Option.some.injEq, Prod.mk.injEq] at hget
        rcases hexp : r.expiresAt with _ | e
        · exact Or.inl (hget.2 ▸ hexp ▸ rfl)
        · refine Or.inr ⟨e, hget.2 ▸ hexp ▸ rfl, ?_⟩
          rw [hexp] at ha
          simpa [Store.alive] using ha
      · rw [if_neg ha] at hget
        exact absurd hget (by simp)
  · intro db k now hl
    exact storeGet_lookupKey_none db k now hl
  · intro db k now r hl ha
    rw [storeGet_lookupKey_some db k now r hl, if_neg (by simp [ha])]
  · intro s k now sdFault
    constructor
    · rcases hc : Cache.Get s.cache k with _ | entry
      · rw [engineGet_cache_none sdFault none s k now hc]
        rcases hg : Store.Get s.db k now with _ | p
        · exact ⟨none, rfl⟩
        · rcases p with ⟨v, exp⟩
          exact ⟨some v, rfl⟩
      · rw [engineGet_cache_some sdFault none s k now entry hc]
        by_cases hexp : Cache.IsExpired (some entry) now = true
        · rw [if_pos hexp]
          exact ⟨none, rfl⟩
        · rw [if_neg hexp]
          exact ⟨some entry.value, rfl⟩
    · intro e hc
      rw [engineGet_cache_none sdFault (some e) s k now hc]

/-- C8 witness: a TTL-expired row is a normal not-found, and a store fault
on a cold read surfaces as an error. -/
theorem store_get_live_only_absent_vs_error_witness :
    Store.Get [("k", ⟨[1], some 3⟩)] "k" 7 = none ∧
      (Engine.Get none (some "down") ⟨emptyCache, []⟩ "k" 7).1 =
        Except.error "down" := by
  constructor
  · exact store_get_live_only_absent_vs_error.2.2.1 [("k", ⟨[1], some 3⟩)] "k" 7
      ⟨[1], some 3⟩ (by decide) (by decide)
  · exact (store_get_live_only_absent_vs_error.2.2.2 ⟨emptyCache, []⟩ "k" 7 none).2
      "down" rfl

theorem sampleStep_foldl_bounds (now : Time) (rows : List (Option Time)) :
    ∀ a b : Nat, b ≤ a →
      (rows.foldl (sampleStep now) (a, b)).2 ≤ (rows.foldl (sampleStep now) (a, b)).1 ∧
      (rows.foldl (sampleStep now) (a, b)).1 ≤ a + rows.length := by
  induction rows with
  | nil =>
    intro a b h
    exact ⟨h, Nat.le_add_right a 0⟩
  | cons o tl ih =>
    intro a b h
    cases o with
    | none =>
      have := ih a b h
      constructor
      · simpa [sampleStep] using this.1
      · have h2 := this.2
        simp only [List.foldl_cons, sampleStep, List.length_cons]
        omega
    | some e =>
      by_cases he : decide (e < now) = true
      · have := ih (a + 1) (b + 1) (by omega)
        constructor
        · simpa [List.foldl_cons, sampleStep, he] using this.1
        · have h2 := this.2
          simp only [List.foldl_cons, sampleStep, he, if_true, List.length_cons]
          omega
      · have := ih (a + 1) b (by omega)
        constructor
        · simpa [List.foldl_cons, sampleStep, he] using this.1
        · have h2 := this.2
          simp [List.foldl_cons, sampleStep, he, List.length_cons]
          omega

/-- C10: `Store.SampleExpiredKeys` always yields `expired ≤ total`, with
`total` bounded by the number of sampled rows (a row whose scan fails is
counted in neither), hence bounded by `sampleSize` for any well-formed
sample; for a non-empty sample the ratio `expired / total` the worker
computes lies in `[0, 1]` and its division is by a non-zero count. -/
theorem sampleExpiredKeys_counts_sound :
    ∀ (rows : List (Option Time)) (now : Time),
      (Store.SampleExpiredKeys rows now).2 ≤ (Store.SampleExpiredKeys rows now).1 ∧
      (Store.SampleExpiredKeys rows now).1 ≤ rows.length ∧
      (∀ (db : DB) (sampleSize : Nat), sampleWF db sampleSize rows →
        (Store.SampleExpiredKeys rows now).1 ≤ sampleSize) ∧
      (0 < (Store.SampleExpiredKeys rows now).1 →
        0 ≤ ((Store.SampleExpiredKeys rows now).2 : ℚ) /
            ((Store.SampleExpiredKeys rows now).1 : ℚ) ∧
        ((Store.SampleExpiredKeys rows now).2 : ℚ) /
            ((Store.SampleExpiredKeys rows now).1 : ℚ) ≤ 1) := by
  intro rows now
  have h := sampleStep_foldl_bounds now rows 0 0 (Nat.le_refl 0)
  have h1 : (Store.SampleExpiredKeys rows now).2 ≤ (Store.SampleExpiredKeys rows now).1 := h.1
  have h2 : (Store.SampleExpiredKeys rows now).1 ≤ rows.length := by
    have := h.2
    simpa [Store.SampleExpiredKeys] using this
  refine ⟨h1, h2, ?_, ?_⟩
  · intro db sampleSize hwf
    exact Nat.le_trans h2 hwf.1
  · intro hpos
    constructor
    · exact div_nonneg (Nat.cast_nonneg _) (Nat.cast_nonneg _)
    · rw [div_le_one (by exact_mod_cast hpos)]
      exact_mod_cast h1

/-- C10 witness: a sample with one failed scan, one expired and one live
row gives counts `(2, 1)` within all bounds and ratio `1/2 ≤ 1`. -/
theorem sampleExpiredKeys_counts_sound_witness :
    (Store.SampleExpiredKeys [some 0, none, some 5] 3).1 ≤ 20 ∧
      ((Store.SampleExpiredKeys [some 0, none, some 5] 3).2 : ℚ) /
          ((Store.SampleExpiredKeys [some 0, none, some 5] 3).1 : ℚ) ≤ 1 := by
  have h := sampleExpiredKeys_counts_sound [some 0, none, some 5] 3
  refine ⟨h.2.2.1 [("a", ⟨[], some 0⟩), ("b", ⟨[], some 5⟩)] 20 ⟨by decide, ?_⟩,
    (h.2.2.2 (by decide)).2⟩
  intro t ht
  simpa using ht

theorem length_filter_notMem_add (db : DB) (vs : List Key) :
    (db.filter (fun p => p.1 ∈ vs)).length +
      (db.filter (fun p => p.1 ∉ vs)).length = db.length := by
  induction db with
  | nil => rfl
  | cons hd tl ih =>
    simp only [List.filter_cons, decide_eq_true_eq]
    by_cases h : hd.1 ∈ vs
    · rw [if_pos h, if_neg (not_not_intro h)]
      simp only [List.length_cons]
      omega
    · rw [if_neg h, if_pos h]
      simp only [List.length_cons]
      omega

theorem deleteVictims_length_le (db : DB) (limit : Nat) (now : Time) :
    (Store.deleteVictims db limit now).length ≤ limit := by
  unfold Store.deleteVictims
  rw [List.length_map]
  exact List.length_take_le _ _

theorem mem_deleteVictims (db : DB) (limit : Nat) (now : Time) {x : Key}
    (hx : x ∈ Store.deleteVictims db limit now) :
    ∃ q ∈ db, q.1 = x ∧ Store.reclaimable q.2.expiresAt now = true := by
  unfold Store.deleteVictims at hx
  rcases List.mem_map.mp hx with ⟨q, hq, rfl⟩
  have hq2 := List.mem_of_mem_take hq
  have hm := List.mem_filter.mp hq2
  exact ⟨q, hm.1, rfl, hm.2⟩

theorem length_filter_mem_le (db : DB) (vs : List Key)
    (h : (db.map Prod.fst).Nodup) :
    (db.filter (fun p => p.1 ∈ vs)).length ≤ vs.length := by
  have hsl : List.Sublist ((db.filter (fun p => p.1 ∈ vs)).map Prod.fst)
      (db.map Prod.fst) :=
    (List.filter_sublist db).map Prod.fst
  have hnd : ((db.filter (fun p => p.1 ∈ vs)).map Prod.fst).Nodup :=
    List.Nodup.sublist hsl h
  have hsub : (db.filter (fun p => p.1 ∈ vs)).map Prod.fst ⊆ vs := by
    intro x hx
    rcases List.mem_map.mp hx with ⟨p, hp, rfl⟩
    have := (List.mem_filter.mp hp).2
    simpa using this
  calc (db.filter (fun p => p.1 ∈ vs)).length
      = ((db.filter (fun p => p.1 ∈ vs)).map Prod.fst).length :=
        (List.length_map _ _).symm
    _ ≤ vs.length := (hnd.subperm hsub).length_le

/-- C4: under the unique-key constraint, `Store.HardDeleteBatch(limit)`
physically removes at most `limit` rows, returns exactly the number of rows
removed, removes only rows whose expiry marker is non-absent and `≤ now`,
and never removes a row whose expiry marker is absent. -/
theorem hardDeleteBatch_spec :
    ∀ (db : DB) (limit : Nat) (now : Time), (db.map Prod.fst).Nodup →
      (Store.HardDeleteBatch db limit now).1 ≤ limit ∧
      (Store.HardDeleteBatch db limit now).1 +
        (Store.HardDeleteBatch db limit now).2.length = db.length ∧
      (∀ p : Key × Row, p ∈ db → p ∉ (Store.HardDeleteBatch db limit now).2 →
        ∃ e, p.2.expiresAt = some e ∧ e ≤ now) ∧
      (∀ p : Key × Row, p ∈ db → p.2.expiresAt = none →
        p ∈ (Store.HardDeleteBatch db limit now).2) := by
  intro db limit now hnd
  have hpart := length_filter_notMem_add db (Store.deleteVictims db limit now)
  have hfle : (db.filter (fun p => p.1 ∉ Store.deleteVictims db limit now)).length ≤
      db.length := List.length_filter_le _ _
  have hcount : (Store.HardDeleteBatch db limit now).1 =
      (db.filter (fun p => p.1 ∈ Store.deleteVictims db limit now)).length := by
    show db.length -
        (db.filter (fun p => p.1 ∉ Store.deleteVictims db limit now)).length = _
    omega
  refine ⟨?_, ?_, ?_, ?_⟩
  · rw [hcount]
    exact le_trans (length_filter_mem_le db _ hnd) (deleteVictims_length_le db limit now)
  · show db.length -
        (db.filter (fun p => p.1 ∉ Store.deleteVictims db limit now)).length +
        (db.filter (fun p => p.1 ∉ Store.deleteVictims db limit now)).length = db.length
    omega
  · intro p hp hnp
    have hin : p.1 ∈ Store.deleteVictims db limit now := by
      by_contra hni
      exact hnp (List.mem_filter.mpr ⟨hp, by simpa using hni⟩)
    rcases mem_deleteVictims db limit now hin with ⟨q, hq, hqk, hqr⟩
    have hqp : q = p := List.inj_on_of_nodup_map hnd hq hp hqk
    subst hqp
    rcases hexp : q.2.expiresAt with _ | e
    · rw [hexp] at hqr
      simp [Store.reclaimable] at hqr
    · rw [hexp] at hqr
      refine ⟨e, rfl, ?_⟩
      simpa [Store.reclaimable] using hqr
  · intro p hp hnone
    refine List.mem_filter.mpr ⟨hp, ?_⟩
    simp only [decide_eq_true_eq]
    intro hin
    rcases mem_deleteVictims db limit now hin with ⟨q, hq, hqk, hqr⟩
    have hqp : q = p := List.inj_on_of_nodup_map hnd hq hp hqk
    rw [hqp, hnone] at hqr
    simp [Store.reclaimable] at hqr

/-- C4 witness: on a two-row table (one permanent row, one tombstoned row)
the batch removes at most the limit and keeps the permanent row. -/
theorem hardDeleteBatch_spec_witness :
    (Store.HardDeleteBatch [("a", ⟨[1], none⟩), ("b", ⟨[2], some 0⟩)] 5 10).1 ≤ 5 ∧
      ("a", (⟨[1], none⟩ : Row)) ∈
        (Store.HardDeleteBatch [("a", ⟨[1], none⟩), ("b", ⟨[2], some 0⟩)] 5 10).2 := by
  have h := hardDeleteBatch_spec [("a", ⟨[1], none⟩), ("b", ⟨[2], some 0⟩)] 5 10
    (by decide)
  exact ⟨h.1, h.2.2.2 ("a", ⟨[1], none⟩) (by decide) rfl⟩

/-- C5: every `Worker.runCycle` follows the five-step algorithm. For a
well-formed sample (at most `SampleSize` rows, each drawn from the table's
non-absent expiry markers): an empty sample (zero scanned rows) ends the
cycle with nothing done; a ratio below `ExpiryThreshold` skips cleanup;
otherwise the cycle issues exactly one `HardDeleteBatch(DeleteBatchSize)`
and records the count it removed — and in every case the table after the
cycle is either unchanged or the result of that single batch delete. -/
theorem worker_runCycle_spec :
    ∀ (cfg : Config) (deleteFault : Option Err) (rows : List (Option Time))
      (db : DB) (now : Time),
      sampleWF db cfg.sampleSize rows →
      ((Worker.runCycle cfg none deleteFault rows db now).2 = db ∨
        (Worker.runCycle cfg none deleteFault rows db now).2 =
          (Store.HardDeleteBatch db cfg.deleteBatchSize now).2) ∧
      ((Store.SampleExpiredKeys rows now).1 = 0 →
        Worker.runCycle cfg none deleteFault rows db now =
          (CycleResult.emptySample, db)) ∧
      (∀ total expired : Nat,
        Store.SampleExpiredKeys rows now = (total, expired) → total ≠ 0 →
        ((expired : ℚ) / (total : ℚ) < cfg.expiryThreshold →
          Worker.runCycle cfg none deleteFault rows db now =
            (CycleResult.skippedLowRatio total expired, db)) ∧
        (¬ (expired : ℚ) / (total : ℚ) < cfg.expiryThreshold → deleteFault = none →
          Worker.runCycle cfg none deleteFault rows db now =
            (CycleResult.cleaned total expired
              (Store.HardDeleteBatch db cfg.deleteBatchSize now).1,
             (Store.HardDeleteBatch db cfg.deleteBatchSize now).2))) := by
  intro cfg deleteFault rows db now hwf
  unfold Worker.runCycle
  by_cases h0 : (Store.SampleExpiredKeys rows now).1 = 0
  · refine ⟨Or.inl ?_, fun _ => ?_, ?_⟩
    · simp [h0]
    · simp [h0]
    · intro total expired heq hne
      rw [heq] at h0
      exact absurd h0 hne
  · rw [if_neg h0]
    by_cases hr : ((Store.SampleExpiredKeys rows now).2 : ℚ) /
        ((Store.SampleExpiredKeys rows now).1 : ℚ) < cfg.expiryThreshold
    · rw [if_pos hr]
      refine ⟨Or.inl rfl, fun h => absurd h h0, ?_⟩
      intro total expired heq hne
      constructor
      · intro _
        rw [heq]
      · intro hge _
        rw [heq] at hr
        exact absurd hr hge
    · rw [if_neg hr]
      cases deleteFault with
      | some e =>
        refine ⟨Or.inl rfl, fun h => absurd h h0, ?_⟩
        intro total expired heq hne
        exact ⟨fun hlt => absurd (heq ▸ hlt) hr, fun _ h => by cases h⟩
      | none =>
        refine ⟨Or.inr rfl, fun h => absurd h h0, ?_⟩
        intro total expired heq hne
        exact ⟨fun hlt => absurd (heq ▸ hlt) hr, fun _ _ => by rw [heq]⟩

/-- C5 witness: a one-row fully-expired sample (ratio 1 ≥ 1/4) on a
single tombstoned row triggers exactly one batch delete that removes it. -/
theorem worker_runCycle_spec_witness :
    Worker.runCycle ⟨20, 1/4, 500⟩ none none [some 0] [("b", ⟨[2], some 0⟩)] 3 =
      (CycleResult.cleaned 1 1
        (Store.HardDeleteBatch [("b", ⟨[2], some 0⟩)] 500 3).1,
       (Store.HardDeleteBatch [("b", ⟨[2], some 0⟩)] 500 3).2) := by
  have h := (worker_runCycle_spec ⟨20, 1/4, 500⟩ none [some 0] [("b", ⟨[2], some 0⟩)] 3
    ⟨by decide, by intro t ht; simpa using ht⟩).2.2 1 1 rfl (by decide)
  exact h.2 (by norm_num) rfl

theorem engineGet_miss_found (s : Sys) (k : Key) (now : Time) (v : Val)
    (exp : Option Time) (hc : Cache.Get s.cache k = none)
    (hg : Store.Get s.db k now = some (v, exp)) :
    Engine.Get none none s k now =
      (Except.ok (some v), ⟨Cache.Set s.cache k v exp, s.db⟩) := by
  rw [engineGet_cache_none none none s k now hc, hg]

theorem engineGet_miss_notfound (s : Sys) (k : Key) (now : Time)
    (hc : Cache.Get s.cache k = none) (hg : Store.Get s.db k now = none) :
    Engine.Get none none s k now = (Except.ok none, s) := by
  rw [engineGet_cache_none none none s k now hc, hg]

theorem engineGet_hit_live (s : Sys) (k : Key) (now : Time) (entry : Entry)
    (hc : Cache.Get s.cache k = some entry)
    (hexp : Cache.IsExpired (some entry) now = false) :
    Engine.Get none none s k now = (Except.ok (some entry.value), s) := by
  rw [engineGet_cache_some none none s k now entry hc, if_neg (by simp [hexp])]

theorem engineGet_hit_expired_ok (s : Sys) (k : Key) (now : Time) (entry : Entry)
    (hc : Cache.Get s.cache k = some entry)
    (hexp : Cache.IsExpired (some entry) now = true) :
    Engine.Get none none s k now =
      (Except.ok none, ⟨Cache.Delete s.cache k, Store.SoftDelete s.db k⟩) := by
  rw [engineGet_cache_some none none s k now entry hc, if_pos hexp]

theorem ttlInv_evict (k : Key) (v : Val) (e tPrev : Time) (s : Sys)
    (h : ttlInv k v e tPrev s) :
    ttlInv k v e tPrev ⟨Cache.Delete s.cache k, s.db⟩ := by
  rcases h with ⟨hdb, _⟩ | ⟨hdb, _, hlt⟩
  · exact Or.inl ⟨hdb, Or.inl (by simp [Cache.Get, Cache.Delete])⟩
  · exact Or.inr ⟨hdb, by simp [Cache.Get, Cache.Delete], hlt⟩

theorem ttl_read_step (k : Key) (v : Val) (e tPrev t : Time) (s : Sys)
    (hinv : ttlInv k v e tPrev s) (h0 : 0 ≤ tPrev) (hle : tPrev ≤ t) :
    (t < e → readResult (Engine.Get none none s k t).1 = some v) ∧
    (e < t → readResult (Engine.Get none none s k t).1 = none) ∧
    ttlInv k v e t (Engine.Get none none s k t).2 := by
  rcases hinv with ⟨hdb, hc | hc⟩ | ⟨hdb, hc, hlt⟩
  · have hsg : Store.Get s.db k t =
        if Store.alive (some e) t then some (v, some e) else none := by
      simpa using storeGet_lookupKey_some s.db k t ⟨v, some e⟩ hdb
    by_cases hte : t < e
    · have hget := engineGet_miss_found s k t v (some e) hc
        (by rw [hsg, if_pos (by simp [Store.alive, hte])])
      rw [hget]
      exact ⟨fun _ => rfl, fun hgt => absurd hgt (lt_asymm hte),
        Or.inl ⟨hdb, Or.inr (by simp [Cache.Get, Cache.Set])⟩⟩
    · have hget := engineGet_miss_notfound s k t hc
        (by rw [hsg, if_neg (by simp [Store.alive, hte])])
      rw [hget]
      exact ⟨fun hlt2 => absurd hlt2 hte, fun _ => rfl, Or.inl ⟨hdb, Or.inl hc⟩⟩
  · by_cases hte : e < t
    · have hexp : Cache.IsExpired (some (⟨v, some e⟩ : Entry)) t = true := by
        simp [Cache.IsExpired, hte]
      have hget := engineGet_hit_expired_ok s k t ⟨v, some e⟩ hc hexp
      rw [hget]
      refine ⟨fun hlt2 => absurd hlt2 (lt_asymm hte), fun _ => rfl,
        Or.inr ⟨?_, by simp [Cache.Get, Cache.Delete], hte⟩⟩
      show DB.lookupKey (Store.SoftDelete s.db k) k = _
      rw [lookupKey_softDelete, hdb]
      rfl
    · have hexp : Cache.IsExpired (some (⟨v, some e⟩ : Entry)) t = false := by
        simp [Cache.IsExpired, hte]
      have hget := engineGet_hit_live s k t ⟨v, some e⟩ hc hexp
      rw [hget]
      exact ⟨fun _ => rfl, fun hgt => absurd hgt hte, Or.inl ⟨hdb, Or.inr hc⟩⟩
  · have hsg : Store.Get s.db k t = none := by
      have h1 := storeGet_lookupKey_some s.db k t ⟨v, some TombstoneTime⟩ hdb
      rw [h1, if_neg]
      simp only [Store.alive, TombstoneTime, decide_eq_true_eq, not_lt]
      exact le_trans h0 hle
    have hget := engineGet_miss_notfound s k t hc hsg
    rw [hget]
    exact ⟨fun hlt2 => absurd hlt2 (lt_asymm (lt_of_lt_of_le hlt hle)), fun _ => rfl,
      Or.inr ⟨hdb, hc, lt_of_lt_of_le hlt hle⟩⟩

theorem runReads_ttl (k : Key) (v : Val) (e : Time) :
    ∀ (reads : List (Time × Bool)) (s : Sys) (tPrev : Time),
      ttlInv k v e tPrev s → 0 ≤ tPrev →
      List.Chain (fun a b => a ≤ b) tPrev (reads.map Prod.fst) →
      List.Forall₂ (fun (tc : Time × Bool) (r : Option Val) =>
        (tc.1 < e → r = some v) ∧ (e < tc.1 → r = none))
        reads (Engine.runReads s k reads).1 := by
  intro reads
  induction reads with
  | nil =>
    intro s tPrev _ _ _
    exact List.Forall₂.nil
  | cons hd tl ih =>
    intro s tPrev hinv h0 hchain
    rcases hd with ⟨t, cold⟩
    simp only [List.map_cons] at hchain
    cases hchain with
    | cons hle hchain2 =>
      have hinv1 : ttlInv k v e tPrev
          (if cold then ⟨Cache.Delete s.cache k, s.db⟩ else s) := by
        cases cold
        · simpa using hinv
        · simpa using ttlInv_evict k v e tPrev s hinv
      have hstep := ttl_read_step k v e tPrev t
        (if cold then ⟨Cache.Delete s.cache k, s.db⟩ else s) hinv1 h0 hle
      show List.Forall₂ _ ((t, cold) :: tl)
        (readResult (Engine.Get none none
            (if cold then ⟨Cache.Delete s.cache k, s.db⟩ else s) k t).1 ::
          (Engine.runReads (Engine.Get none none
            (if cold then ⟨Cache.Delete s.cache k, s.db⟩ else s) k t).2 k tl).1)
      exact List.Forall₂.cons ⟨hstep.1, hstep.2.1⟩
        (ih _ t hstep.2.2 (le_trans h0 hle) hchain2)

theorem wrap64_eq_self (n : Int) (h1 : -(2 ^ 63) ≤ n) (h2 : n < 2 ^ 63) :
    wrap64 n = n := by
  unfold wrap64
  have h3 : 0 ≤ n + 2 ^ 63 := by linarith
  have h4 : n + 2 ^ 63 < 2 ^ 64 := by
    have he : (2 : Int) ^ 64 = 2 ^ 63 + 2 ^ 63 := by norm_num
    linarith
  rw [Int.emod_eq_of_lt h3 h4]
  ring

/-- C7 counterexample: at `ttlSeconds = 9223372037` the multiplication
`time.Duration(ttlSeconds) * time.Second` overflows int64, so after
`SetWithTTL` at write time 0 the stored expiry marker does not equal write
time plus ttl (the wrapped marker lands far in the past), and a read one
nanosecond after the write — long before the ttl has elapsed — already
returns Absent instead of the value. -/
theorem setWithTTL_overflow_cex :
    DB.lookupKey
        ((Engine.SetWithTTL none ⟨emptyCache, []⟩ "k" [9] 9223372037 0).2).db "k" ≠
      some ⟨[9], some (0 + 9223372037 * 1000000000)⟩ ∧
    readResult (Engine.Get none none
      ((Engine.SetWithTTL none ⟨emptyCache, []⟩ "k" [9] 9223372037 0).2) "k" 1).1 =
      none := by
  constructor
  · decide
  · decide

/-- C7 amended: for every ttl with `0 < ttl ≤ 9223372036` — the range in
which `time.Duration(ttl) * time.Second` does not overflow int64 — after a
successful `Engine.SetWithTTL(k, v, ttl)` at write time `t0` the store
row's expiry marker equals the write time plus ttl seconds
(`t0 + ttl * 10^9` nanoseconds) and the cache holds exactly the timestamp
the store computed; along any subsequent wall-clock-ordered sequence of
reads — each optionally preceded by a cache eviction, covering both cache
hits and cache-cold reads from the store — every read strictly before the
expiry returns `v` and every read strictly after returns Absent. -/
theorem setWithTTL_get_spec_bounded :
    ∀ (s : Sys) (k : Key) (v : Val) (ttl t0 : Time) (reads : List (Time × Bool)),
      0 < ttl → ttl ≤ 9223372036 → 0 ≤ t0 →
      List.Chain (fun a b => a ≤ b) t0 (reads.map Prod.fst) →
      (Engine.SetWithTTL none s k v ttl t0).1 = none ∧
      DB.lookupKey ((Engine.SetWithTTL none s k v ttl t0).2).db k =
        some ⟨v, some (t0 + ttl * 1000000000)⟩ ∧
      Cache.Get ((Engine.SetWithTTL none s k v ttl t0).2).cache k =
        some ⟨v, some (t0 + ttl * 1000000000)⟩ ∧
      List.Forall₂ (fun (tc : Time × Bool) (r : Option Val) =>
        (tc.1 < t0 + ttl * 1000000000 → r = some v) ∧
        (t0 + ttl * 1000000000 < tc.1 → r = none))
        reads (Engine.runReads ((Engine.SetWithTTL none s k v ttl t0).2) k reads).1 := by
  intro s k v ttl t0 reads httl hbound ht0 hchain
  have hw : wrap64 (ttl * 1000000000) = ttl * 1000000000 := by
    apply wrap64_eq_self
    · have hpos : 0 < ttl * 1000000000 := mul_pos httl (by norm_num)
      have hneg : -((2 : Int) ^ 63) ≤ 0 := by norm_num
      exact le_trans hneg (le_of_lt hpos)
    · have hle2 : ttl * 1000000000 ≤ 9223372036 * 1000000000 :=
        mul_le_mul_of_nonneg_right hbound (by norm_num)
      exact lt_of_le_of_lt hle2 (by norm_num)
  have hdb : DB.lookupKey ((Engine.SetWithTTL none s k v ttl t0).2).db k =
      some ⟨v, some (t0 + ttl * 1000000000)⟩ := by
    show DB.lookupKey
        (DB.upsert s.db k ⟨v, some (t0 + wrap64 (ttl * 1000000000))⟩) k = _
    rw [hw]
    exact lookupKey_upsert s.db k ⟨v, some (t0 + ttl * 1000000000)⟩
  have hcache : Cache.Get ((Engine.SetWithTTL none s k v ttl t0).2).cache k =
      some ⟨v, some (t0 + ttl * 1000000000)⟩ := by
    show Cache.Get (Cache.Set s.cache k v (some (t0 + wrap64 (ttl * 1000000000)))) k = _
    rw [hw]
    simp [Cache.Get, Cache.Set]
  exact ⟨rfl, hdb, hcache,
    runReads_ttl k v (t0 + ttl * 1000000000) reads _ t0
      (Or.inl ⟨hdb, Or.inr hcache⟩) ht0 hchain⟩

/-- C7 witness: writing value `[9]` with a 10-second TTL at time 5 ns, a
warm read at 7 ns yields the value and a cache-cold read at 20 s yields
Absent. -/
theorem setWithTTL_get_spec_bounded_witness :
    List.Forall₂ (fun (tc : Time × Bool) (r : Option Val) =>
        (tc.1 < 5 + 10 * 1000000000 → r = some [9]) ∧
        (5 + 10 * 1000000000 < tc.1 → r = none))
      [((7 : Time), false), ((20000000000 : Time), true)]
      (Engine.runReads ((Engine.SetWithTTL none ⟨emptyCache, []⟩ "k" [9] 10 5).2) "k"
        [((7 : Time), false), ((20000000000 : Time), true)]).1 := by
  have h := setWithTTL_get_spec_bounded ⟨emptyCache, []⟩ "k" [9] 10 5
    [((7 : Time), false), ((20000000000 : Time), true)] (by norm_num) (by norm_num)
    (by norm_num)
    (by
      simp only [List.map_cons, List.map_nil]
      exact List.Chain.cons (by norm_num)
        (List.Chain.cons (by norm_num) List.Chain.nil))
  exact h.2.2.2
